import Mathlib

/-!
Verification of the stamp/memo note-store engine against its specification.

The definitions below are shallow embeddings of the C functions in
src/stamp.c, src/stamp.h and src/memo.c.  C strings are modelled as
`List Char`, the store file as a list of decoded records (or raw lines,
for the memo status machinery, which works character-wise on lines),
machine ints as `Int`, and file side effects as explicit state passing.
Loops whose termination is in question are modelled with explicit fuel.
-/

set_option maxRecDepth 8000

namespace Stamp

/-- The Note struct of stamp.h: `int id; char date[10]; char *message;`. -/
structure Note where
  id : Int
  date : String
  message : String
deriving DecidableEq

/-- Result of `line_to_Note`: each field of the returned struct is only
assigned when the corresponding token is present (otherwise the C leaves
it uninitialized, modelled here as `none`). -/
structure RawNote where
  id : Option Int
  date : Option String
  message : Option String
deriving DecidableEq

/-- One call to `strtok(s, d)` with a single-character delimiter set, as the
code always uses it: skip leading delimiters; if nothing remains, return no
token; otherwise the token runs to the next delimiter (which is consumed)
and the second component is the rest of the string after it. -/
def strtokStep (s : List Char) (d : Char) : Option (List Char) × List Char :=
  let s1 := s.dropWhile (fun c => c == d)
  if s1 = [] then (none, [])
  else (some (s1.takeWhile (fun c => c != d)), (s1.dropWhile (fun c => c != d)).tail)

/-- C `isspace` on the characters relevant to `atoi`. -/
def isSpaceChar (c : Char) : Bool :=
  c == ' ' || c == '\t' || c == '\n' || c == '\r' || c == '\x0b' || c == '\x0c'

/-- C `isdigit`: the character codes of the ASCII digits 0-9. -/
def isDigitChar (c : Char) : Bool :=
  48 ≤ c.toNat && c.toNat ≤ 57

/-- Accumulate decimal digits, stopping at the first non-digit, as the digit
loop of C `atoi`/`strtol` (base 10) does. -/
def atoiDigitsAux : List Char → Nat → Nat
  | [], acc => acc
  | c :: r, acc => if isDigitChar c then atoiDigitsAux r (acc * 10 + (c.toNat - 48)) else acc

/-- C `atoi` (equivalently `strtol(_, _, 10)` as used in the code): skip
whitespace, optional sign, then decimal digits; 0 when no digits. -/
def atoi (s : List Char) : Int :=
  let t := s.dropWhile (fun c => isSpaceChar c)
  match t with
  | [] => 0
  | c :: r =>
    if c = '-' then - (atoiDigitsAux r 0 : Int)
    else if c = '+' then (atoiDigitsAux r 0 : Int)
    else (atoiDigitsAux (c :: r) 0 : Int)

/-- Decimal digit character for a value below ten. -/
def digitChar (d : Nat) : Char := Char.ofNat (48 + d)

/-- Decimal digits of a natural number, most significant first, with fuel
(structural recursion; the fuel `n + 1` in `natDigits` always suffices). -/
def natDigitsAux : Nat → Nat → List Char
  | 0, _ => []
  | fuel + 1, n =>
    if n < 10 then [digitChar n]
    else natDigitsAux fuel (n / 10) ++ [digitChar (n % 10)]

/-- Decimal digits of a natural number, as printf %u would produce them. -/
def natDigits (n : Nat) : List Char := natDigitsAux (n + 1) n

/-- printf %d rendering of an int. -/
def intChars (i : Int) : List Char :=
  if i < 0 then '-' :: natDigits (-i).toNat else natDigits i.toNat

/-- NOTE_FMT of stamp.h: `"%d\t%s\t%s\n"` applied to id, date, message. -/
def encodeNote (n : Note) : List Char :=
  intChars n.id ++ ('\t' :: (n.date.data ++ ('\t' :: (n.message.data ++ ['\n']))))

/-- line_to_Note of stamp.c: first tab token is atoi-ed into `id`; the second
tab token is stored as `date` only when its length is exactly 10; the
remainder up to the newline is copied into `message`.  A field whose token is
absent is left uninitialized (`none`). -/
def line_to_Note (line : List Char) : RawNote :=
  let p1 := strtokStep line '\t'
  let id := p1.1.map atoi
  let p2 := strtokStep p1.2 '\t'
  let date := match p2.1 with
    | some t => if t.length = 10 then some (String.mk t) else none
    | none => none
  let p3 := strtokStep p2.2 '\n'
  { id := id, date := date, message := p3.1.map String.mk }

/-- The scan loop of delete_note in stamp.c: records whose id reads as 0
(`if (!note.id) continue;`) are skipped; a record matching the target id sets
the found flag and is not written; every other record is written through in
order. Returns the found flag and the contents written to the temp file. -/
def delete_scan : List Note → Int → Bool × List Note
  | [], _ => (false, [])
  | note :: rest, id =>
    if note.id = 0 then delete_scan rest id
    else if note.id = id then (true, (delete_scan rest id).2)
    else ((delete_scan rest id).1, note :: (delete_scan rest id).2)

/-- delete_note of stamp.c, at the store level: on a found id the temp file
replaces the store and 0 is returned; otherwise the temp file is discarded,
the store is left untouched and -1 is returned (with the not-found report). -/
def delete_note (store : List Note) (id : Int) : Int × List Note :=
  let scan := delete_scan store id
  if scan.1 then (0, scan.2) else (-1, store)

/-- The `for (;;)` loop of get_next_id in stamp.c, with explicit fuel.
`reads` are the remaining lines of the file, decoded; once the file is
exhausted, `read_file_note` returns an uninitialized Note whose id is
arbitrary garbage, modelled by the parameter `g`.  The loop breaks only when
the record just read has a nonzero id and `current` equals `lines`. -/
def next_id_loop (g : Int) : Nat → List Note → Int → Int → Option Int
  | 0, _, _, _ => none
  | fuel + 1, reads, current, lines =>
    let noteId := match reads with
      | n :: _ => n.id
      | [] => g
    let rest := match reads with
      | _ :: r => r
      | [] => []
    if noteId ≠ 0 ∧ current = lines then some noteId
    else next_id_loop g fuel rest (current + 1) lines

/-- get_next_id of stamp.c.  A missing store file makes get_memo_file_ptr
return NULL, count_file_lines then returns -1 and the function returns -1.
A store without newlines gives count -2 and the function returns id+1 = 1.
Otherwise `lines` is the newline count minus one and the scan loop runs;
its result plus one is returned.  `none` means the loop ran out of fuel. -/
def get_next_id (g : Int) (fuel : Nat) (store : Option (List Note)) : Option Int :=
  match store with
  | none => some (-1)
  | some notes =>
    if notes.length = 0 then some 1
    else (next_id_loop g fuel notes 0 ((notes.length : Int) - 1)).map (· + 1)

/-- The output loop of show_latest in stamp.c: records with id 0 are skipped
without advancing `current`; otherwise the record is emitted when
`current++ > start`. -/
def latest_loop : List Note → Int → Int → List Note
  | [], _, _ => []
  | note :: rest, current, start =>
    if note.id = 0 then latest_loop rest current start
    else if current > start then note :: latest_loop rest (current + 1) start
    else latest_loop rest (current + 1) start

/-- show_latest of stamp.c: `lines` is count_file_lines (newline count minus
one, -2 for a file without newlines); when `n > lines` or `n < 0` the cutoff
`start` is -1, otherwise `start = lines - n`; then the loop emits the
records whose position exceeds `start`. -/
def show_latest (store : List Note) (n : Int) : List Note :=
  let lines : Int := if store.length = 0 then -2 else (store.length : Int) - 1
  let start : Int := if n > lines ∨ n < 0 then -1 else lines - n
  latest_loop store 0 start

/-- The records of a store whose 0-based position strictly exceeds `cutoff`,
in order.  Used to state the cutoff sentence of the spec. -/
def positionsExceeding : List Note → Int → Int → List Note
  | [], _, _ => []
  | note :: rest, pos, cutoff =>
    if pos > cutoff then note :: positionsExceeding rest (pos + 1) cutoff
    else positionsExceeding rest (pos + 1) cutoff

/-- is_valid_date_format of stamp.c, after sscanf has produced the three
integer groups y, m, d: the leap-year test of the code is
`y % 400 == 0 || y % 100 != 0 || y % 4 == 0` (all three tests are pure
divisibility tests, so C truncated % and Lean % agree); month must avoid
`m <= 0 || m >= 13` and day must avoid `d <= 0 || d > day_count[m-1]`.
Returns 0 on success and -1 on failure as the C does. -/
def is_valid_date_format (y m d : Int) : Int :=
  let day_count : List Int := [31, 28, 31, 30, 31, 30, 31, 31, 30, 31, 30, 31]
  let day_count2 := if y % 400 = 0 ∨ y % 100 ≠ 0 ∨ y % 4 = 0 then day_count.set 1 29 else day_count
  if m ≤ 0 ∨ m ≥ 13 then -1
  else if d ≤ 0 ∨ d > day_count2.getD ((m - 1).toNat) 0 then -1
  else 0

/-- remove_content_newlines of stamp.c: compacts the string in place,
dropping every newline character. -/
def remove_content_newlines (content : String) : String :=
  String.mk (content.data.filter (fun c => c ≠ '\n'))

/-- add_note of stamp.c: an empty content is refused with -1 before the store
is opened or touched; otherwise newlines are stripped from the content, the
store is opened for append (which creates a missing file, so the store list
is the current contents), get_next_id supplies the id (-1 is patched to 1),
the date defaults to today, and the encoded record is appended.  The result
pairs the returned id with the resulting store contents; `none` models
get_next_id running out of fuel. -/
def add_note (g : Int) (fuel : Nat) (store : List Note) (content : String)
    (date : Option String) (today : String) : Option (Int × List Note) :=
  if content.length = 0 then some (-1, store)
  else
    let content2 := remove_content_newlines content
    match get_next_id g fuel (some store) with
    | none => none
    | some nid =>
      let id := if nid = -1 then 1 else nid
      let d := match date with
        | some x => x
        | none => today
      some (id, store ++ [{ id := id, date := d, message := content2 }])

end Stamp

namespace Memo

/-- The NoteStatus_t enum of memo.c. -/
inductive NoteStatus where
  | DONE
  | UNDONE
  | DELETE
  | DELETE_DONE
  | STATUS_ERROR
  | ALL_DONE
  | POSTPONED
deriving DecidableEq

/-- note_status_replace of memo.c: scan the line and overwrite the first
occurrence of `old` with `new2`, leaving everything else alone.  (The scan is
over the whole line, not just the status field.) -/
def note_status_replace : List Char → Char → Char → List Char
  | [], _, _ => []
  | c :: rest, old, new2 =>
    if c = old then new2 :: rest else c :: note_status_replace rest old new2

/-- get_note_status of memo.c: an empty line is STATUS_ERROR; otherwise the
second tab token is compared against "U", "D" and "P". -/
def get_note_status (line : List Char) : NoteStatus :=
  if line = [] then .STATUS_ERROR
  else
    let p1 := Stamp.strtokStep line '\t'
    let p2 := Stamp.strtokStep p1.2 '\t'
    match p2.1 with
    | none => .STATUS_ERROR
    | some t =>
      if t = ['U'] then .UNDONE
      else if t = ['D'] then .DONE
      else if t = ['P'] then .POSTPONED
      else .STATUS_ERROR

/-- mark_as_done of memo.c (the line it writes to the temp file, without the
trailing newline added by fprintf). -/
def mark_as_done (line : List Char) : List Char :=
  if get_note_status line = .POSTPONED then note_status_replace line 'P' 'D'
  else note_status_replace line 'U' 'D'

/-- mark_as_undone of memo.c. -/
def mark_as_undone (line : List Char) : List Char :=
  if get_note_status line = .POSTPONED then note_status_replace line 'P' 'U'
  else note_status_replace line 'D' 'U'

/-- mark_as_postponed of memo.c: only an UNDONE note is changed; any other
line is written through unchanged. -/
def mark_as_postponed (line : List Char) : List Char :=
  if get_note_status line = .UNDONE then note_status_replace line 'U' 'P'
  else line

/-- The rewrite loop of mark_note_status in memo.c, per line and status:
`curr` is strtol of the line.  Lines are written to the temp file in order;
the DELETE and DELETE_DONE cases omit lines, the STATUS_ERROR case writes
nothing.  The function returns the lines written to the temp file, which
then atomically replaces the store. -/
def mark_note_status (status : NoteStatus) (id : Int) (store : List (List Char)) :
    List (List Char) :=
  store.flatMap (fun line =>
    let curr := Stamp.atoi line
    match status with
    | .DONE => if curr = id then [mark_as_done line] else [line]
    | .UNDONE => if curr = id then [mark_as_undone line] else [line]
    | .DELETE => if curr = id then [] else [line]
    | .DELETE_DONE => if get_note_status line = .DONE then [] else [line]
    | .STATUS_ERROR => []
    | .ALL_DONE => [note_status_replace line 'U' 'D']
    | .POSTPONED => if curr = id then [mark_as_postponed line] else [line])

/-- The four fields of a memo-schema record, before encoding into a line. -/
structure MemoRec where
  id : List Char
  st : Char
  date : List Char
  content : List Char
deriving DecidableEq

/-- The stored line of a memo-schema record: id TAB status TAB date TAB
content. -/
def mkLine (r : MemoRec) : List Char :=
  r.id ++ ('\t' :: r.st :: '\t' :: (r.date ++ ('\t' :: r.content)))

/-- Well-formedness of a memo-schema record as the spec describes it: a
nonempty numeric id, a status letter among U, D, P, and a yyyy-MM-dd date
(digits and dashes only). -/
def wfRec (r : MemoRec) : Prop :=
  r.id ≠ [] ∧ (∀ c ∈ r.id, Stamp.isDigitChar c = true) ∧
    (r.st = 'U' ∨ r.st = 'D' ∨ r.st = 'P') ∧
    (∀ c ∈ r.date, Stamp.isDigitChar c = true ∨ c = '-')

instance (r : MemoRec) : Decidable (wfRec r) := by
  unfold wfRec
  infer_instance

/-- Split a line into its tab-separated fields. -/
def splitTab : List Char → List (List Char)
  | [] => [[]]
  | c :: rest =>
    if c = '\t' then [] :: splitTab rest
    else
      match splitTab rest with
      | [] => [[c]]
      | f :: fs => (c :: f) :: fs

/-- Number of positions at which two lines hold different characters
(compared pointwise up to the shorter length). -/
def diffCount : List Char → List Char → Nat
  | x :: xs, y :: ys => (if x = y then 0 else 1) + diffCount xs ys
  | _, _ => 0

/-- The frame property of the status-marking helpers on a record `r`: the
output line keeps the id field and the date field of `r`, has the same
length, and differs from the original line in at most one character. -/
def id_date_frame (r : MemoRec) (out : List Char) : Prop :=
  (splitTab out).getD 0 [] = r.id ∧
    (splitTab out).getD 2 [] = r.date ∧
    out.length = (mkLine r).length ∧
    diffCount (mkLine r) out ≤ 1

instance (r : MemoRec) (out : List Char) : Decidable (id_date_frame r out) := by
  unfold id_date_frame
  infer_instance

end Memo

/-! ## Basic facts about characters and digits -/

namespace Stamp

theorem isDigitChar_bounds (c : Char) (h : isDigitChar c = true) :
    48 ≤ c.toNat ∧ c.toNat ≤ 57 := by
  simpa [isDigitChar] using h

theorem not_mem_of_all_digits (l : List Char) (h : ∀ c ∈ l, isDigitChar c = true)
    (x : Char) (hx : isDigitChar x = false) : x ∉ l := by
  intro hm
  have hc := h x hm
  rw [hc] at hx
  cases hx

theorem digit_ne_of_isDigitChar (c x : Char) (h : isDigitChar c = true)
    (hx : isDigitChar x = false) : c ≠ x := by
  intro heq
  rw [heq] at h
  rw [h] at hx
  cases hx

theorem isSpaceChar_of_digit (c : Char) (h : isDigitChar c = true) :
    isSpaceChar c = false := by
  have hb := isDigitChar_bounds c h
  simp only [isSpaceChar, Bool.or_eq_false_iff, beq_eq_false_iff_ne, ne_eq]
  refine ⟨⟨⟨⟨⟨?_, ?_⟩, ?_⟩, ?_⟩, ?_⟩, ?_⟩ <;>
    (rintro rfl; exact absurd hb (by decide))

theorem digitChar_toNat (d : Nat) (h : d < 10) : (digitChar d).toNat = 48 + d := by
  interval_cases d <;> decide

theorem digitChar_isDigit (d : Nat) (h : d < 10) : isDigitChar (digitChar d) = true := by
  interval_cases d <;> decide

/-! ## natDigits and atoi -/

theorem natDigitsAux_ne_nil (fuel n : Nat) (h : n < fuel) : natDigitsAux fuel n ≠ [] := by
  induction fuel generalizing n with
  | zero => omega
  | succ f ih =>
    rw [natDigitsAux]
    by_cases h10 : n < 10
    · simp [h10]
    · simp [h10]

theorem natDigitsAux_all_digits (fuel n : Nat) (h : n < fuel) :
    ∀ c ∈ natDigitsAux fuel n, isDigitChar c = true := by
  induction fuel generalizing n with
  | zero => omega
  | succ f ih =>
    intro c hc
    rw [natDigitsAux] at hc
    by_cases h10 : n < 10
    · simp only [if_pos h10, List.mem_singleton] at hc
      subst hc
      exact digitChar_isDigit n h10
    · simp only [if_neg h10, List.mem_append, List.mem_singleton] at hc
      rcases hc with hc | hc
      · have hlt : n / 10 < f := by
          have := Nat.div_lt_self (by omega : 0 < n) (by omega : 1 < 10)
          omega
        exact ih (n / 10) hlt c hc
      · subst hc
        exact digitChar_isDigit _ (Nat.mod_lt n (by omega))

theorem atoiDigitsAux_append (l1 l2 : List Char) (acc : Nat)
    (h : ∀ c ∈ l1, isDigitChar c = true) :
    atoiDigitsAux (l1 ++ l2) acc = atoiDigitsAux l2 (atoiDigitsAux l1 acc) := by
  induction l1 generalizing acc with
  | nil => simp [atoiDigitsAux]
  | cons c t ih =>
    have hc : isDigitChar c = true := h c (by simp)
    simp only [List.cons_append, atoiDigitsAux, hc, if_pos]
    exact ih _ (fun x hx => h x (by simp [hx]))

theorem atoiDigitsAux_natDigitsAux (fuel n : Nat) (h : n < fuel) :
    atoiDigitsAux (natDigitsAux fuel n) 0 = n := by
  induction fuel generalizing n with
  | zero => omega
  | succ f ih =>
    rw [natDigitsAux]
    by_cases h10 : n < 10
    · rw [if_pos h10]
      simp [atoiDigitsAux, digitChar_isDigit n h10, digitChar_toNat n h10]
    · have hlt : n / 10 < f := by
        have := Nat.div_lt_self (by omega : 0 < n) (by omega : 1 < 10)
        omega
      rw [if_neg h10,
        atoiDigitsAux_append _ _ _ (natDigitsAux_all_digits f (n / 10) hlt),
        ih (n / 10) hlt]
      have hm : n % 10 < 10 := Nat.mod_lt n (by omega)
      simp [atoiDigitsAux, digitChar_isDigit _ hm, digitChar_toNat _ hm]
      omega

theorem natDigits_ne_nil (n : Nat) : natDigits n ≠ [] :=
  natDigitsAux_ne_nil (n + 1) n (by omega)

theorem natDigits_all_digits (n : Nat) : ∀ c ∈ natDigits n, isDigitChar c = true :=
  natDigitsAux_all_digits (n + 1) n (by omega)

theorem atoi_natDigits (n : Nat) : atoi (natDigits n) = n := by
  rcases hl : natDigits n with _ | ⟨c, t⟩
  · exact absurd hl (natDigits_ne_nil n)
  · have hall : ∀ x ∈ natDigits n, isDigitChar x = true := natDigits_all_digits n
    have hc : isDigitChar c = true := by
      apply hall
      rw [hl]
      simp
    have hsp : isSpaceChar c = false := isSpaceChar_of_digit c hc
    have hminus : c ≠ '-' := digit_ne_of_isDigitChar c '-' hc (by decide)
    have hplus : c ≠ '+' := digit_ne_of_isDigitChar c '+' hc (by decide)
    have hdrop : (c :: t).dropWhile (fun x => isSpaceChar x) = c :: t := by
      simp [List.dropWhile_cons, hsp]
    rw [atoi]
    simp only [hl, hdrop, if_neg hminus, if_neg hplus]
    have := atoiDigitsAux_natDigitsAux (n + 1) n (by omega)
    rw [natDigits] at hl
    rw [hl] at this
    rw [this]

/-! ## strtok -/

theorem takeWhile_ne_append (d : Char) (l1 l2 : List Char) (h : ∀ c ∈ l1, c ≠ d) :
    (l1 ++ d :: l2).takeWhile (fun c => c != d) = l1 := by
  induction l1 with
  | nil => simp [List.takeWhile_cons]
  | cons a t ih =>
    have ha : a ≠ d := h a (by simp)
    simp only [List.cons_append, List.takeWhile_cons, bne_iff_ne, ne_eq, ha,
      not_false_eq_true, if_pos]
    simp only [List.cons.injEq, true_and]
    exact ih (fun c hc => h c (by simp [hc]))

theorem dropWhile_ne_append (d : Char) (l1 l2 : List Char) (h : ∀ c ∈ l1, c ≠ d) :
    (l1 ++ d :: l2).dropWhile (fun c => c != d) = d :: l2 := by
  induction l1 with
  | nil => simp [List.dropWhile_cons]
  | cons a t ih =>
    have ha : a ≠ d := h a (by simp)
    simp only [List.cons_append, List.dropWhile_cons, bne_iff_ne, ne_eq, ha,
      not_false_eq_true, if_pos]
    exact ih (fun c hc => h c (by simp [hc]))

theorem strtokStep_split (d : Char) (tok rest : List Char) (hne : tok ≠ [])
    (h : ∀ c ∈ tok, c ≠ d) :
    strtokStep (tok ++ d :: rest) d = (some tok, rest) := by
  rcases tok with _ | ⟨c0, t⟩
  · exact absurd rfl hne
  · have hc0 : c0 ≠ d := h c0 (by simp)
    have hdrop1 : ((c0 :: t) ++ d :: rest).dropWhile (fun c => c == d) =
        (c0 :: t) ++ d :: rest := by
      simp [List.dropWhile_cons, hc0]
    rw [strtokStep]
    simp only [hdrop1]
    rw [if_neg (by simp)]
    rw [takeWhile_ne_append d _ _ h, dropWhile_ne_append d _ _ h]
    rfl

/-! ## Claim C1: the record codec round trip -/

theorem atoi_intChars_pos (i : Int) (h : 0 < i) : atoi (intChars i) = i := by
  rw [intChars, if_neg (by omega)]
  rw [atoi_natDigits]
  omega

theorem intChars_pos_digits (i : Int) (h : 0 < i) :
    intChars i ≠ [] ∧ ∀ c ∈ intChars i, isDigitChar c = true := by
  rw [intChars, if_neg (by omega)]
  exact ⟨natDigits_ne_nil _, natDigits_all_digits _⟩

/-- Claim C1 (counterexample): the round trip fails as stated.  For the Note
with id 1, date 2014-11-02 and empty content — whose content trivially
contains no tab or newline — `strtok(NULL, "\n")` finds no third token in
the encoded line `1\t2014-11-02\t\n`, so line_to_Note leaves the message
field unassigned instead of returning the original empty content. -/
theorem line_to_Note_encodeNote_counterexample :
    line_to_Note (encodeNote { id := 1, date := "2014-11-02", message := "" }) ≠
      { id := some 1, date := some "2014-11-02", message := some "" } := by
  decide

/-- Claim C1 (amended): for every Note with positive id, 10-character date
free of tabs and newlines, and NONEMPTY content containing no tab or newline,
line_to_Note applied to the NOTE_FMT encoding returns the same id, the same
date and the same content. -/
theorem line_to_Note_encodeNote (note : Note)
    (hid : 0 < note.id)
    (hdate : note.date.data.length = 10)
    (hdtab : '\t' ∉ note.date.data) (hdnl : '\n' ∉ note.date.data)
    (hm : note.message.data ≠ [])
    (hmtab : '\t' ∉ note.message.data) (hmnl : '\n' ∉ note.message.data) :
    line_to_Note (encodeNote note) =
      { id := some note.id, date := some note.date, message := some note.message } := by
  obtain ⟨hne, hdig⟩ := intChars_pos_digits note.id hid
  have h1 : strtokStep (encodeNote note) '\t' =
      (some (intChars note.id), note.date.data ++ '\t' :: (note.message.data ++ ['\n'])) := by
    rw [encodeNote]
    exact strtokStep_split '\t' _ _ hne
      (fun c hc => digit_ne_of_isDigitChar c '\t' (hdig c hc) (by decide))
  have h2 : strtokStep (note.date.data ++ '\t' :: (note.message.data ++ ['\n'])) '\t' =
      (some note.date.data, note.message.data ++ ['\n']) := by
    apply strtokStep_split
    · intro hnil
      rw [hnil] at hdate
      simp at hdate
    · intro c hc heq
      exact hdtab (heq ▸ hc)
  have h3 : strtokStep (note.message.data ++ ['\n']) '\n' =
      (some note.message.data, []) := by
    have : note.message.data ++ ['\n'] = note.message.data ++ '\n' :: [] := rfl
    rw [this]
    apply strtokStep_split _ _ _ hm
    intro c hc heq
    exact hmnl (heq ▸ hc)
  rw [line_to_Note]
  simp only [h1, h2, h3, Option.map, if_pos hdate, atoi_intChars_pos note.id hid]

/-- Claim C1 (witness for the amended round trip), at the Note
(1, 2014-11-02, "buy milk"). -/
theorem line_to_Note_encodeNote_witness :
    line_to_Note (encodeNote { id := 1, date := "2014-11-02", message := "buy milk" }) =
      { id := some 1, date := some "2014-11-02", message := some "buy milk" } :=
  line_to_Note_encodeNote { id := 1, date := "2014-11-02", message := "buy milk" }
    (by decide) (by decide) (by decide) (by decide) (by decide) (by decide) (by decide)

/-! ## Claim C2: delete by id -/

theorem delete_scan_eq (store : List Note) (id : Int) (h : ∀ n ∈ store, n.id ≠ 0) :
    delete_scan store id =
      (store.any (fun n => n.id == id), store.filter (fun n => n.id != id)) := by
  induction store with
  | nil => rfl
  | cons n rest ih =>
    have hn : n.id ≠ 0 := h n (by simp)
    have hr := ih (fun x hx => h x (by simp [hx]))
    simp only [delete_scan]
    rw [if_neg hn]
    by_cases hm : n.id = id
    · rw [if_pos hm, hr]
      simp [List.any_cons, List.filter_cons, hm]
    · rw [if_neg hm, hr]
      simp [List.any_cons, List.filter_cons, hm]

/-- Claim C2: delete_note removes exactly the records carrying the target id,
keeps all other records in their original order and returns success (0); when
no record carries the target id it returns the distinct not-found failure
(-1) and the store is unchanged; in particular repeating a successful delete
of the same id reports not-found and changes nothing. -/
theorem delete_note_spec (store : List Note) (id : Int) (h : ∀ n ∈ store, n.id ≠ 0) :
    ((∃ n ∈ store, n.id = id) →
      delete_note store id = (0, store.filter (fun n => n.id != id)) ∧
      delete_note (store.filter (fun n => n.id != id)) id =
        (-1, store.filter (fun n => n.id != id))) ∧
    ((∀ n ∈ store, n.id ≠ id) → delete_note store id = (-1, store)) := by
  have hscan := delete_scan_eq store id h
  constructor
  · intro hex
    have hany : store.any (fun n => n.id == id) = true := by
      simp only [List.any_eq_true, beq_iff_eq]
      exact hex
    constructor
    · rw [delete_note, hscan]
      simp [hany]
    · have h2 : ∀ n ∈ store.filter (fun n => n.id != id), n.id ≠ 0 := by
        intro n hn
        exact h n (List.mem_of_mem_filter hn)
      have hscan2 := delete_scan_eq (store.filter (fun n => n.id != id)) id h2
      have hnone : (store.filter (fun n => n.id != id)).any (fun n => n.id == id) = false := by
        simp only [List.any_eq_false, beq_iff_eq]
        intro n hn
        have := List.of_mem_filter hn
        simpa using this
      rw [delete_note, hscan2]
      simp [hnone]
  · intro hmiss
    have hany : store.any (fun n => n.id == id) = false := by
      simp only [List.any_eq_false, beq_iff_eq]
      exact hmiss
    rw [delete_note, hscan]
    simp [hany]

/-- Claim C2 (witness): deleting id 2 from the 3-note store with ids 1, 2, 3
keeps ids 1 and 3 in order and succeeds; repeating the delete reports the
not-found failure and leaves the store unchanged. -/
theorem delete_note_spec_witness :
    delete_note [{ id := 1, date := "2014-11-01", message := "a" },
                 { id := 2, date := "2014-11-01", message := "b" },
                 { id := 3, date := "2014-11-02", message := "c" }] 2 =
      (0, [{ id := 1, date := "2014-11-01", message := "a" },
           { id := 3, date := "2014-11-02", message := "c" }]) ∧
    delete_note [{ id := 1, date := "2014-11-01", message := "a" },
                 { id := 3, date := "2014-11-02", message := "c" }] 2 =
      (-1, [{ id := 1, date := "2014-11-01", message := "a" },
            { id := 3, date := "2014-11-02", message := "c" }]) := by
  have h := (delete_note_spec
    [{ id := 1, date := "2014-11-01", message := "a" },
     { id := 2, date := "2014-11-01", message := "b" },
     { id := 3, date := "2014-11-02", message := "c" }] 2 (by decide)).1 (by decide)
  have hf : ([{ id := 1, date := "2014-11-01", message := "a" },
              { id := 2, date := "2014-11-01", message := "b" },
              { id := 3, date := "2014-11-02", message := "c" }] : List Note).filter
      (fun n => n.id != 2) =
      [{ id := 1, date := "2014-11-01", message := "a" },
       { id := 3, date := "2014-11-02", message := "c" }] := by decide
  rw [hf] at h
  exact h

/-! ## Claim C3: the identifier allocator -/

theorem next_id_loop_nil (g : Int) (fuel : Nat) :
    ∀ current lines : Int, lines < current →
      next_id_loop g fuel [] current lines = none := by
  induction fuel with
  | zero => intro current lines _; rfl
  | succ f ih =>
    intro current lines hlt
    rw [next_id_loop]
    rw [if_neg (by omega : ¬(g ≠ 0 ∧ current = lines))]
    exact ih (current + 1) lines (by omega)

/-- Claim C3 (code evaluated at the failing input): on a two-line store whose
final line fails to decode (its id reads as 0), get_next_id of stamp.c never
reaches a result: whatever garbage `g` the reads past end-of-file produce and
however much fuel the loop is given, the break condition can never fire again
because `current` has already passed `lines`.  The claim instead requires the
allocator to terminate with lastId + 1 = 2 here. -/
theorem get_next_id_corrupt_final_line_hangs :
    ¬ ∃ (g : Int) (fuel : Nat) (r : Int),
      get_next_id g fuel (some [{ id := 1, date := "2014-11-02", message := "a" },
                                { id := 0, date := "", message := "" }]) = some r := by
  rintro ⟨g, fuel, r, hres⟩
  have hloop : ∀ f : Nat,
      next_id_loop g f [{ id := 1, date := "2014-11-02", message := "a" },
                        { id := 0, date := "", message := "" }] 0 1 = none := by
    intro f
    match f with
    | 0 => rfl
    | 1 => rfl
    | Nat.succ (Nat.succ f2) =>
      rw [next_id_loop]
      rw [if_neg (by simp : ¬((1 : Int) ≠ 0 ∧ (0 : Int) = 1))]
      rw [next_id_loop]
      rw [if_neg (by simp : ¬((0 : Int) ≠ 0 ∧ (0 : Int) + 1 = 1))]
      exact next_id_loop_nil g f2 (0 + 1 + 1) 1 (by omega)
  rw [get_next_id] at hres
  rw [if_neg (by decide)] at hres
  rw [show (([{ id := 1, date := "2014-11-02", message := "a" },
              { id := 0, date := "", message := "" }] : List Note).length : Int) - 1 = 1
    from by decide] at hres
  rw [hloop fuel] at hres
  cases hres

/-! ## Claims C4 and C5: latest N -/

theorem latest_loop_drop (store : List Note) (h : ∀ x ∈ store, x.id ≠ 0) :
    ∀ current start : Int,
      latest_loop store current start = store.drop (start + 1 - current).toNat := by
  induction store with
  | nil => intro current start; simp [latest_loop]
  | cons note rest ih =>
    intro current start
    have hn : note.id ≠ 0 := h note (by simp)
    have hr := ih (fun x hx => h x (by simp [hx]))
    simp only [latest_loop]
    rw [if_neg hn]
    by_cases hc : current > start
    · rw [if_pos hc, hr (current + 1) start]
      rw [show (start + 1 - (current + 1)).toNat = 0 from by omega]
      rw [show (start + 1 - current).toNat = 0 from by omega]
      simp
    · rw [if_neg hc, hr (current + 1) start]
      rw [show (start + 1 - current).toNat = (start + 1 - (current + 1)).toNat + 1 from by omega]
      simp

theorem show_latest_all_or_drop (store : List Note) (n : Int)
    (h : ∀ x ∈ store, x.id ≠ 0) :
    ((n < 0 ∨ n > (store.length : Int)) → show_latest store n = store) ∧
    (0 ≤ n → n ≤ (store.length : Int) →
      show_latest store n = store.drop (store.length - n.toNat)) := by
  have hloop := latest_loop_drop store h
  constructor
  · intro hc
    rw [show_latest]
    have hstart : (if n > (if store.length = 0 then (-2 : Int) else (store.length : Int) - 1)
        ∨ n < 0 then (-1 : Int)
        else (if store.length = 0 then (-2 : Int) else (store.length : Int) - 1) - n) = -1 := by
      by_cases h0 : store.length = 0
      · rw [if_pos h0]
        rw [if_pos]
        rcases hc with hc | hc
        · right; exact hc
        · left; omega
      · rw [if_neg h0]
        rw [if_pos]
        rcases hc with hc | hc
        · right; exact hc
        · left; omega
    rw [hstart, hloop 0 (-1)]
    simp
  · intro h0 h1
    rw [show_latest]
    by_cases hz : store.length = 0
    · rw [if_pos hz]
      have : n = 0 := by omega
      subst this
      rw [if_pos (by norm_num)]
      rw [hloop 0 (-1)]
      rcases store with _ | _
      · simp
      · simp at hz
    · rw [if_neg hz]
      by_cases he : n > (store.length : Int) - 1
      · rw [if_pos (Or.inl he)]
        rw [hloop 0 (-1)]
        rw [show store.length - n.toNat = 0 from by omega]
        simp
      · rw [if_neg (by omega : ¬(n > (store.length : Int) - 1 ∨ n < 0))]
        rw [hloop 0 ((store.length : Int) - 1 - n)]
        congr 1
        omega

/-- Claim C4: for every store of decodable records and every integer n,
show_latest emits all records in original order when n is negative or
exceeds the record count, and otherwise emits exactly the last n records in
original (not reversed) order. -/
theorem show_latest_spec (store : List Note) (n : Int) (h : ∀ x ∈ store, x.id ≠ 0) :
    ((n < 0 ∨ n > (store.length : Int)) → show_latest store n = store) ∧
    (0 ≤ n → n ≤ (store.length : Int) →
      show_latest store n = store.drop (store.length - n.toNat)) :=
  show_latest_all_or_drop store n h

/-- Claim C4 (witness): over a store of five notes, latest(2) emits exactly
notes 4 and 5, in that order. -/
theorem show_latest_spec_witness :
    (0 : Int) ≤ 2 ∧
    show_latest [{ id := 1, date := "2014-11-01", message := "a" },
                 { id := 2, date := "2014-11-01", message := "b" },
                 { id := 3, date := "2014-11-01", message := "c" },
                 { id := 4, date := "2014-11-02", message := "d" },
                 { id := 5, date := "2014-11-02", message := "e" }] 2 =
      [{ id := 4, date := "2014-11-02", message := "d" },
       { id := 5, date := "2014-11-02", message := "e" }] := by
  refine ⟨by norm_num, ?_⟩
  have h := (show_latest_spec [{ id := 1, date := "2014-11-01", message := "a" },
                 { id := 2, date := "2014-11-01", message := "b" },
                 { id := 3, date := "2014-11-01", message := "c" },
                 { id := 4, date := "2014-11-02", message := "d" },
                 { id := 5, date := "2014-11-02", message := "e" }] 2
    (by decide)).2 (by norm_num) (by norm_num)
  rw [h]
  decide

theorem positionsExceeding_drop (store : List Note) :
    ∀ pos cutoff : Int,
      positionsExceeding store pos cutoff = store.drop (cutoff + 1 - pos).toNat := by
  induction store with
  | nil => intro pos cutoff; simp [positionsExceeding]
  | cons note rest ih =>
    intro pos cutoff
    simp only [positionsExceeding]
    by_cases hc : pos > cutoff
    · rw [if_pos hc, ih (pos + 1) cutoff]
      rw [show (cutoff + 1 - (pos + 1)).toNat = 0 from by omega]
      rw [show (cutoff + 1 - pos).toNat = 0 from by omega]
      simp
    · rw [if_neg hc, ih (pos + 1) cutoff]
      rw [show (cutoff + 1 - pos).toNat = (cutoff + 1 - (pos + 1)).toNat + 1 from by omega]
      simp

/-- Claim C5 (counterexample): the cutoff formula of the claim is off by one.
Over a 2-note store with n = 1, the claim's rule (start = total - N, emit
0-based positions exceeding start) emits nothing, while show_latest emits
the last note: the code computes start = lines - n where lines is the
record count MINUS ONE. -/
theorem show_latest_cutoff_counterexample :
    show_latest [{ id := 1, date := "2014-11-01", message := "a" },
                 { id := 2, date := "2014-11-01", message := "b" }] 1 ≠
      positionsExceeding [{ id := 1, date := "2014-11-01", message := "a" },
                          { id := 2, date := "2014-11-01", message := "b" }] 0
        ((2 : Int) - 1) := by
  decide

/-- Claim C5 (amended): when 0 <= N <= total, show_latest computes its cutoff
as start = (total - 1) - N (the count_file_lines value `lines = total - 1`
minus N; for N = total the explicit -1 branch coincides with this) and emits
exactly those records whose 0-based position exceeds start. -/
theorem show_latest_cutoff (store : List Note) (n : Int) (h : ∀ x ∈ store, x.id ≠ 0)
    (h0 : 0 ≤ n) (h1 : n ≤ (store.length : Int)) :
    show_latest store n =
      positionsExceeding store 0 ((store.length : Int) - 1 - n) := by
  rw [(show_latest_all_or_drop store n h).2 h0 h1, positionsExceeding_drop store 0 _]
  congr 1
  omega

/-- Claim C5 (witness for the amended cutoff), over a 2-note store with n = 1:
the cutoff is (2 - 1) - 1 = 0 and exactly the record at position 1 is
emitted. -/
theorem show_latest_cutoff_witness :
    show_latest [{ id := 1, date := "2014-11-01", message := "a" },
                 { id := 2, date := "2014-11-01", message := "b" }] 1 =
      positionsExceeding [{ id := 1, date := "2014-11-01", message := "a" },
                          { id := 2, date := "2014-11-01", message := "b" }] 0
        (((2 : Int)) - 1 - 1) :=
  show_latest_cutoff [{ id := 1, date := "2014-11-01", message := "a" },
                      { id := 2, date := "2014-11-01", message := "b" }] 1
    (by decide) (by norm_num) (by norm_num)

/-! ## Claim C8: date validation -/

/-- Claim C8 (code evaluated at the failing input): the code accepts
1900-02-29, which the claim requires to be rejected (1900 is divisible by
100 but not by 400).  The leap-year condition of the code,
`y % 400 == 0 || y % 100 != 0 || y % 4 == 0`, is true of every year, so
February is always given 29 days. -/
theorem is_valid_date_format_leap_bug : is_valid_date_format 1900 2 29 = 0 := by
  decide

/-! ## Claim C9: empty notes are refused -/

/-- Claim C9: add_note called with empty content returns -1 before opening or
writing anything: for every store, garbage value, fuel, optional date and
current day, the store is left exactly as it was and no id is consumed. -/
theorem add_note_rejects_empty (g : Int) (fuel : Nat) (store : List Note)
    (date : Option String) (today : String) :
    add_note g fuel store "" date today = some (-1, store) := rfl

theorem not_mem_of_digits_dash (l : List Char)
    (h : ∀ c ∈ l, isDigitChar c = true ∨ c = '-') (x : Char)
    (hx : isDigitChar x = false) (hd : x ≠ '-') : x ∉ l := by
  intro hm
  rcases h x hm with hc | hc
  · rw [hc] at hx
    cases hx
  · exact hd hc

end Stamp

namespace Memo

/-! ## note_status_replace -/

theorem nsr_not_mem (l : List Char) (old new2 : Char) (h : old ∉ l) :
    note_status_replace l old new2 = l := by
  induction l with
  | nil => rfl
  | cons c rest ih =>
    have hc : c ≠ old := fun heq => h (by simp [heq])
    simp only [note_status_replace, if_neg hc]
    rw [ih (fun hm => h (by simp [hm]))]

theorem nsr_cons_ne (l : List Char) (c old new2 : Char) (h : c ≠ old) :
    note_status_replace (c :: l) old new2 = c :: note_status_replace l old new2 := by
  simp only [note_status_replace, if_neg h]

theorem nsr_cons_head (l : List Char) (old new2 : Char) :
    note_status_replace (old :: l) old new2 = new2 :: l := by
  simp [note_status_replace]

theorem nsr_append (l1 l2 : List Char) (old new2 : Char) (h : old ∉ l1) :
    note_status_replace (l1 ++ l2) old new2 = l1 ++ note_status_replace l2 old new2 := by
  induction l1 with
  | nil => simp
  | cons c rest ih =>
    have hc : c ≠ old := fun heq => h (by simp [heq])
    simp only [List.cons_append, nsr_cons_ne _ _ _ _ hc]
    rw [ih (fun hm => h (by simp [hm]))]

theorem nsr_length (l : List Char) (old new2 : Char) :
    (note_status_replace l old new2).length = l.length := by
  induction l with
  | nil => rfl
  | cons c rest ih =>
    by_cases hc : c = old
    · simp [note_status_replace, hc]
    · simp [note_status_replace, hc, ih]

theorem nsr_mem_of (l : List Char) (old new2 c : Char)
    (h : c ∈ note_status_replace l old new2) : c ∈ l ∨ c = new2 := by
  induction l with
  | nil => simp [note_status_replace] at h
  | cons a rest ih =>
    by_cases ha : a = old
    · rw [ha, nsr_cons_head] at h
      rcases List.mem_cons.mp h with h | h
      · right; exact h
      · left; simp [h]
    · rw [nsr_cons_ne _ _ _ _ ha] at h
      rcases List.mem_cons.mp h with h | h
      · left; simp [h]
      · rcases ih h with h | h
        · left; simp [h]
        · right; exact h

/-! ## get_note_status on well-formed lines -/

theorem get_note_status_mkLine (r : MemoRec) (hne : r.id ≠ [])
    (htab : '\t' ∉ r.id) (hst : r.st ≠ '\t') :
    get_note_status (mkLine r) =
      (if r.st = 'U' then NoteStatus.UNDONE
       else if r.st = 'D' then NoteStatus.DONE
       else if r.st = 'P' then NoteStatus.POSTPONED
       else NoteStatus.STATUS_ERROR) := by
  have h1 : Stamp.strtokStep (mkLine r) '\t' =
      (some r.id, r.st :: '\t' :: (r.date ++ ('\t' :: r.content))) := by
    rw [mkLine]
    exact Stamp.strtokStep_split '\t' _ _ hne (fun c hc heq => htab (heq ▸ hc))
  have h2 : Stamp.strtokStep (r.st :: '\t' :: (r.date ++ ('\t' :: r.content))) '\t' =
      (some [r.st], r.date ++ ('\t' :: r.content)) := by
    have hshape : r.st :: '\t' :: (r.date ++ ('\t' :: r.content)) =
        [r.st] ++ '\t' :: (r.date ++ ('\t' :: r.content)) := rfl
    rw [hshape]
    apply Stamp.strtokStep_split _ _ _ (by simp)
    intro c hc
    rw [List.mem_singleton] at hc
    subst hc
    exact hst
  have hmk : mkLine r ≠ [] := by
    rw [mkLine]
    simp
  rw [get_note_status, if_neg hmk]
  simp only [h1, h2]
  by_cases hU : r.st = 'U'
  · simp [hU]
  · by_cases hD : r.st = 'D'
    · simp [hD]
    · by_cases hP : r.st = 'P'
      · simp [hP]
      · simp [hU, hD, hP, List.cons.injEq]

/-! ## note_status_replace on well-formed lines -/

theorem nsr_mkLine_st (r : MemoRec) (y : Char) (hid : r.st ∉ r.id)
    (hne : r.st ≠ '\t') :
    note_status_replace (mkLine r) r.st y = mkLine { r with st := y } := by
  rw [mkLine, nsr_append _ _ _ _ hid,
    nsr_cons_ne _ _ _ _ (fun heq => hne heq.symm), nsr_cons_head]
  rfl

theorem nsr_mkLine_content (r : MemoRec) (x y : Char) (hxid : x ∉ r.id)
    (hxst : r.st ≠ x) (hxtab : x ≠ '\t') (hxdate : x ∉ r.date) :
    note_status_replace (mkLine r) x y =
      mkLine { r with content := note_status_replace r.content x y } := by
  rw [mkLine, nsr_append _ _ _ _ hxid,
    nsr_cons_ne _ _ _ _ (fun heq => hxtab heq.symm),
    nsr_cons_ne _ _ _ _ (fun heq => hxst heq),
    nsr_cons_ne _ _ _ _ (fun heq => hxtab heq.symm),
    nsr_append _ _ _ _ hxdate,
    nsr_cons_ne _ _ _ _ (fun heq => hxtab heq.symm)]
  rfl

/-! ## Claim C6: markDone idempotence -/

theorem wf_st_ne_tab (r : MemoRec) (hst : r.st = 'U' ∨ r.st = 'D' ∨ r.st = 'P') :
    r.st ≠ '\t' := by
  rcases hst with h | h | h <;> (rw [h]; decide)

theorem wf_not_mem_id (r : MemoRec) (hdig : ∀ c ∈ r.id, Stamp.isDigitChar c = true)
    (x : Char) (hx : Stamp.isDigitChar x = false) : x ∉ r.id :=
  Stamp.not_mem_of_all_digits r.id hdig x hx

theorem wf_not_mem_date (r : MemoRec)
    (hdate : ∀ c ∈ r.date, Stamp.isDigitChar c = true ∨ c = '-')
    (x : Char) (hx : Stamp.isDigitChar x = false) (hd : x ≠ '-') : x ∉ r.date :=
  Stamp.not_mem_of_digits_dash r.date hdate x hx hd

theorem not_mem_mkLine (r : MemoRec) (x : Char) (hxid : x ∉ r.id)
    (hxst : r.st ≠ x) (hxtab : x ≠ '\t') (hxdate : x ∉ r.date)
    (hxcontent : x ∉ r.content) : x ∉ mkLine r := by
  rw [mkLine]
  simp only [List.mem_append, List.mem_cons]
  rintro (h | h | h | h | h | h)
  · exact hxid h
  · exact hxtab h
  · exact hxst h.symm
  · exact hxtab h
  · exact hxdate h
  · rcases h with h | h
    · exact hxtab h
    · exact hxcontent h

theorem mark_as_done_mkLine (r : MemoRec) (hwf : wfRec r)
    (hU : r.st = 'D' → 'U' ∉ r.content) :
    mark_as_done (mkLine r) = mkLine { r with st := 'D' } := by
  obtain ⟨hne, hdig, hst, hdate⟩ := hwf
  have hstt : r.st ≠ '\t' := wf_st_ne_tab r hst
  have htabid : '\t' ∉ r.id := wf_not_mem_id r hdig '\t' (by decide)
  have hgs := get_note_status_mkLine r hne htabid hstt
  rcases hst with hU' | hD' | hP'
  · have hgs2 : get_note_status (mkLine r) = NoteStatus.UNDONE := by
      rw [hgs, if_pos hU']
    rw [mark_as_done, hgs2, if_neg (by decide)]
    conv_lhs => rw [show 'U' = r.st from hU'.symm]
    exact nsr_mkLine_st r 'D' (hU' ▸ wf_not_mem_id r hdig 'U' (by decide)) hstt
  · have hgs2 : get_note_status (mkLine r) = NoteStatus.DONE := by
      rw [hgs, if_neg (by rw [hD']; decide), if_pos hD']
    rw [mark_as_done, hgs2, if_neg (by decide)]
    rw [nsr_not_mem _ _ _ (not_mem_mkLine r 'U'
      (wf_not_mem_id r hdig 'U' (by decide))
      (by rw [hD']; decide) (by decide)
      (wf_not_mem_date r hdate 'U' (by decide) (by decide))
      (hU hD'))]
    rw [show ({ r with st := 'D' } : MemoRec) = r from by rw [← hD']]
  · have hgs2 : get_note_status (mkLine r) = NoteStatus.POSTPONED := by
      rw [hgs, if_neg (by rw [hP']; decide), if_neg (by rw [hP']; decide), if_pos hP']
    rw [mark_as_done, hgs2, if_pos rfl]
    conv_lhs => rw [show 'P' = r.st from hP'.symm]
    exact nsr_mkLine_st r 'D' (hP' ▸ wf_not_mem_id r hdig 'P' (by decide)) hstt

/-- Claim C6 (counterexample): mark_as_done is not idempotent on every record
line.  On the Undone record `1\tU\t2014-11-02\tUse`, the first application
turns the status U into D; the second application, seeing status D, rewrites
the first remaining U in the line — the U of the content "Use" — producing
`1\tD\t2014-11-02\tDse`, different from the single application. -/
theorem mark_as_done_idempotent_counterexample :
    mark_as_done (mark_as_done ("1\tU\t2014-11-02\tUse".data)) ≠
      mark_as_done ("1\tU\t2014-11-02\tUse".data) := by
  decide

/-- Claim C6 (amended): for every well-formed record line — nonempty numeric
id, status letter among U, D, P, digits-and-dashes date — whose content
contains no occurrence of the character U, applying mark_as_done twice in
succession produces the same final record as applying it once, and
Done -> Done is a no-op rewrite. -/
theorem mark_as_done_idempotent (r : MemoRec) (hwf : wfRec r)
    (hU : 'U' ∉ r.content) :
    mark_as_done (mark_as_done (mkLine r)) = mark_as_done (mkLine r) := by
  obtain ⟨hne, hdig, hst, hdate⟩ := hwf
  have h1 := mark_as_done_mkLine r ⟨hne, hdig, hst, hdate⟩ (fun _ => hU)
  have h2 := mark_as_done_mkLine { r with st := 'D' }
    ⟨hne, hdig, Or.inr (Or.inl rfl), hdate⟩ (fun _ => hU)
  rw [h1, h2]

/-- Claim C6 (witness): the amended idempotence at the record
(1, U, 2014-11-02, "pay rent"). -/
theorem mark_as_done_idempotent_witness :
    wfRec { id := ['1'], st := 'U', date := "2014-11-02".data,
            content := "pay rent".data } ∧
    mark_as_done (mark_as_done (mkLine { id := ['1'], st := 'U',
                                         date := "2014-11-02".data,
                                         content := "pay rent".data })) =
      mark_as_done (mkLine { id := ['1'], st := 'U', date := "2014-11-02".data,
                             content := "pay rent".data }) :=
  ⟨by decide, mark_as_done_idempotent _ (by decide) (by decide)⟩

/-! ## Claim C7: bulk mark-all-done -/

theorem all_done_mkLine (r : MemoRec) (hwf : wfRec r)
    (hU : r.st ≠ 'U' → 'U' ∉ r.content) :
    note_status_replace (mkLine r) 'U' 'D' =
      mkLine { r with st := if r.st = 'U' then 'D' else r.st } := by
  obtain ⟨hne, hdig, hst, hdate⟩ := hwf
  have hstt : r.st ≠ '\t' := wf_st_ne_tab r hst
  by_cases hU' : r.st = 'U'
  · rw [if_pos hU']
    conv_lhs => rw [show 'U' = r.st from hU'.symm]
    exact nsr_mkLine_st r 'D' (hU' ▸ wf_not_mem_id r hdig 'U' (by decide)) hstt
  · rw [if_neg hU']
    rw [nsr_not_mem _ _ _ (not_mem_mkLine r 'U'
      (wf_not_mem_id r hdig 'U' (by decide))
      hU' (by decide)
      (wf_not_mem_date r hdate 'U' (by decide) (by decide))
      (hU hU'))]

theorem mark_all_done_map (id : Int) (lines : List (List Char)) :
    mark_note_status NoteStatus.ALL_DONE id lines =
      lines.map (fun l => note_status_replace l 'U' 'D') := by
  induction lines with
  | nil => rfl
  | cons l rest ih =>
    simp only [mark_note_status] at ih ⊢
    simp [ih]

/-- Claim C7 (counterexample): the bulk ALL_DONE rewrite does not write every
Done record through unchanged.  On the single-record store
`1\tD\t2014-11-02\tUse`, the unconditional replacement of the first U in the
line overwrites the U of the content "Use", producing
`1\tD\t2014-11-02\tDse`. -/
theorem mark_all_done_counterexample :
    mark_note_status NoteStatus.ALL_DONE 0 [("1\tD\t2014-11-02\tUse".data)] ≠
      [("1\tD\t2014-11-02\tUse".data)] := by
  decide

/-- Claim C7 (amended): on a store of well-formed records, mark_note_status
with ALL_DONE maps every Undone record to the same record with status Done —
no other field is modified — and writes every Done and every Postponed
record through unchanged PROVIDED its content contains no occurrence of the
character U (otherwise that first U is overwritten with D). -/
theorem mark_all_done_spec (store : List MemoRec) (id : Int)
    (h : ∀ r ∈ store, wfRec r ∧ (r.st ≠ 'U' → 'U' ∉ r.content)) :
    mark_note_status NoteStatus.ALL_DONE id (store.map mkLine) =
      store.map (fun r => mkLine { r with st := if r.st = 'U' then 'D' else r.st }) := by
  rw [mark_all_done_map, List.map_map]
  apply List.map_congr_left
  intro r hr
  exact all_done_mkLine r (h r hr).1 (h r hr).2

/-- Claim C7 (witness): the amended bulk rule over a three-record store with
one Undone, one Done and one Postponed record: the Undone record becomes
Done, the other two are written through unchanged. -/
theorem mark_all_done_spec_witness :
    mark_note_status NoteStatus.ALL_DONE 0 (List.map mkLine
      [{ id := ['1'], st := 'U', date := "2014-11-01".data, content := "a".data },
       { id := ['2'], st := 'D', date := "2014-11-01".data, content := "b".data },
       { id := ['3'], st := 'P', date := "2014-11-02".data, content := "c".data }]) =
      List.map mkLine
      [{ id := ['1'], st := 'D', date := "2014-11-01".data, content := "a".data },
       { id := ['2'], st := 'D', date := "2014-11-01".data, content := "b".data },
       { id := ['3'], st := 'P', date := "2014-11-02".data, content := "c".data }] := by
  have h := mark_all_done_spec
    [{ id := ['1'], st := 'U', date := "2014-11-01".data, content := "a".data },
     { id := ['2'], st := 'D', date := "2014-11-01".data, content := "b".data },
     { id := ['3'], st := 'P', date := "2014-11-02".data, content := "c".data }] 0
    (by decide)
  rw [h]
  decide

/-! ## Claim C10: splitTab, diffCount and the id/date frame -/

theorem splitTab_no_tab (l : List Char) (h : '\t' ∉ l) : splitTab l = [l] := by
  induction l with
  | nil => rfl
  | cons c rest ih =>
    have hc : c ≠ '\t' := fun heq => h (by simp [heq])
    rw [splitTab, if_neg hc, ih (fun hm => h (by simp [hm]))]

theorem splitTab_append_tab (l1 l2 : List Char) (h : '\t' ∉ l1) :
    splitTab (l1 ++ '\t' :: l2) = l1 :: splitTab l2 := by
  induction l1 with
  | nil =>
    simp only [List.nil_append]
    rw [splitTab, if_pos rfl]
  | cons c t ih =>
    have hc : c ≠ '\t' := fun heq => h (by simp [heq])
    simp only [List.cons_append]
    rw [splitTab, if_neg hc, ih (fun hm => h (by simp [hm]))]

theorem splitTab_mkLine (r : MemoRec) (hid : '\t' ∉ r.id) (hst : r.st ≠ '\t')
    (hdate : '\t' ∉ r.date) (hcontent : '\t' ∉ r.content) :
    splitTab (mkLine r) = [r.id, [r.st], r.date, r.content] := by
  rw [mkLine, splitTab_append_tab _ _ hid]
  rw [show (r.st :: '\t' :: (r.date ++ ('\t' :: r.content))) =
    [r.st] ++ '\t' :: (r.date ++ ('\t' :: r.content)) from rfl]
  rw [splitTab_append_tab _ _
    (by simp only [List.mem_singleton]; exact fun heq => hst heq.symm)]
  rw [splitTab_append_tab _ _ hdate]
  rw [splitTab_no_tab _ hcontent]

theorem diffCount_self (l : List Char) : diffCount l l = 0 := by
  induction l with
  | nil => rfl
  | cons c rest ih => simp [diffCount, ih]

theorem diffCount_append_left (a b c : List Char) :
    diffCount (a ++ b) (a ++ c) = diffCount b c := by
  induction a with
  | nil => rfl
  | cons x t ih => simp [diffCount, ih]

theorem diffCount_cons (c1 c2 : Char) (l1 l2 : List Char) :
    diffCount (c1 :: l1) (c2 :: l2) = (if c1 = c2 then 0 else 1) + diffCount l1 l2 :=
  rfl

theorem diffCount_nsr (l : List Char) (old new2 : Char) :
    diffCount l (note_status_replace l old new2) ≤ 1 := by
  induction l with
  | nil => simp [note_status_replace, diffCount]
  | cons c rest ih =>
    by_cases hc : c = old
    · rw [hc, nsr_cons_head, diffCount_cons, diffCount_self]
      split <;> omega
    · rw [nsr_cons_ne _ _ _ _ hc, diffCount_cons, if_pos rfl]
      omega

theorem mkLine_length_st (r : MemoRec) (y : Char) :
    (mkLine { r with st := y }).length = (mkLine r).length := by
  simp [mkLine]

theorem mkLine_length_content (r : MemoRec) (c2 : List Char)
    (hlen : c2.length = r.content.length) :
    (mkLine { r with content := c2 }).length = (mkLine r).length := by
  simp [mkLine, hlen]

theorem diffCount_cons_eq (c : Char) (l1 l2 : List Char) :
    diffCount (c :: l1) (c :: l2) = diffCount l1 l2 := by
  simp [diffCount_cons]

theorem diffCount_mkLine_st (r : MemoRec) (y : Char) :
    diffCount (mkLine r) (mkLine { r with st := y }) ≤ 1 := by
  rw [mkLine, mkLine, diffCount_append_left, diffCount_cons, diffCount_cons,
    diffCount_self, if_pos rfl]
  split <;> omega

theorem diffCount_mkLine_content (r : MemoRec) (old new2 : Char) :
    diffCount (mkLine r)
      (mkLine { r with content := note_status_replace r.content old new2 }) ≤ 1 := by
  have h : mkLine { r with content := note_status_replace r.content old new2 } =
      r.id ++ ('\t' :: r.st :: '\t' ::
        (r.date ++ ('\t' :: note_status_replace r.content old new2))) := rfl
  rw [mkLine, h, diffCount_append_left, diffCount_cons_eq, diffCount_cons_eq,
    diffCount_cons_eq, diffCount_append_left, diffCount_cons_eq]
  exact diffCount_nsr r.content old new2

theorem frame_of_status_change (r : MemoRec) (y : Char) (hid : '\t' ∉ r.id)
    (hst : r.st ≠ '\t') (hy : y ≠ '\t') (hdate : '\t' ∉ r.date)
    (hcontent : '\t' ∉ r.content) :
    id_date_frame r (mkLine { r with st := y }) := by
  refine ⟨?_, ?_, mkLine_length_st r y, diffCount_mkLine_st r y⟩
  · rw [splitTab_mkLine { r with st := y } hid hy hdate hcontent]
    rfl
  · rw [splitTab_mkLine { r with st := y } hid hy hdate hcontent]
    rfl

theorem frame_of_content_change (r : MemoRec) (old new2 : Char)
    (hid : '\t' ∉ r.id) (hst : r.st ≠ '\t') (hnew : new2 ≠ '\t')
    (hdate : '\t' ∉ r.date) (hcontent : '\t' ∉ r.content) :
    id_date_frame r (mkLine { r with content := note_status_replace r.content old new2 }) := by
  have hc2 : '\t' ∉ note_status_replace r.content old new2 := by
    intro hm
    rcases nsr_mem_of _ _ _ _ hm with hm | hm
    · exact hcontent hm
    · exact hnew hm.symm
  refine ⟨?_, ?_, mkLine_length_content r _ (nsr_length _ _ _),
    diffCount_mkLine_content r old new2⟩
  · rw [splitTab_mkLine { r with content := note_status_replace r.content old new2 }
      hid hst hdate hc2]
    rfl
  · rw [splitTab_mkLine { r with content := note_status_replace r.content old new2 }
      hid hst hdate hc2]
    rfl

theorem frame_self (r : MemoRec) (hid : '\t' ∉ r.id) (hst : r.st ≠ '\t')
    (hdate : '\t' ∉ r.date) (hcontent : '\t' ∉ r.content) :
    id_date_frame r (mkLine r) := by
  refine ⟨?_, ?_, rfl, by rw [diffCount_self]; omega⟩
  · rw [splitTab_mkLine r hid hst hdate hcontent]
    rfl
  · rw [splitTab_mkLine r hid hst hdate hcontent]
    rfl

/-- Claim C10: for every well-formed record line (nonempty numeric id, status
letter among U, D, P, digits-and-dashes date, tab-free content, fields
tab-separated in that order), each of mark_as_done, mark_as_undone and
mark_as_postponed writes a line whose id field and date field equal the
original's, and which differs from the original line in at most one
character. -/
theorem mark_helpers_preserve_id_date (r : MemoRec) (hwf : wfRec r)
    (hct : '\t' ∉ r.content) :
    id_date_frame r (mark_as_done (mkLine r)) ∧
    id_date_frame r (mark_as_undone (mkLine r)) ∧
    id_date_frame r (mark_as_postponed (mkLine r)) := by
  obtain ⟨hne, hdig, hst, hdate⟩ := hwf
  have hstt : r.st ≠ '\t' := wf_st_ne_tab r hst
  have htabid : '\t' ∉ r.id := wf_not_mem_id r hdig '\t' (by decide)
  have htabdate : '\t' ∉ r.date := wf_not_mem_date r hdate '\t' (by decide) (by decide)
  have hUid : 'U' ∉ r.id := wf_not_mem_id r hdig 'U' (by decide)
  have hDid : 'D' ∉ r.id := wf_not_mem_id r hdig 'D' (by decide)
  have hPid : 'P' ∉ r.id := wf_not_mem_id r hdig 'P' (by decide)
  have hUdate : 'U' ∉ r.date := wf_not_mem_date r hdate 'U' (by decide) (by decide)
  have hDdate : 'D' ∉ r.date := wf_not_mem_date r hdate 'D' (by decide) (by decide)
  have hgs := get_note_status_mkLine r hne htabid hstt
  rcases hst with hU' | hD' | hP'
  · have hgs2 : get_note_status (mkLine r) = NoteStatus.UNDONE := by
      rw [hgs, if_pos hU']
    refine ⟨?_, ?_, ?_⟩
    · rw [mark_as_done, hgs2, if_neg (by decide),
        show ('U' : Char) = r.st from hU'.symm,
        nsr_mkLine_st r 'D' (by rw [hU']; exact hUid) hstt]
      exact frame_of_status_change r 'D' htabid hstt (by decide) htabdate hct
    · rw [mark_as_undone, hgs2, if_neg (by decide),
        nsr_mkLine_content r 'D' 'U' hDid (by rw [hU']; decide) (by decide) hDdate]
      exact frame_of_content_change r 'D' 'U' htabid hstt (by decide) htabdate hct
    · rw [mark_as_postponed, hgs2, if_pos rfl,
        show ('U' : Char) = r.st from hU'.symm,
        nsr_mkLine_st r 'P' (by rw [hU']; exact hUid) hstt]
      exact frame_of_status_change r 'P' htabid hstt (by decide) htabdate hct
  · have hgs2 : get_note_status (mkLine r) = NoteStatus.DONE := by
      rw [hgs, if_neg (by rw [hD']; decide), if_pos hD']
    refine ⟨?_, ?_, ?_⟩
    · rw [mark_as_done, hgs2, if_neg (by decide),
        nsr_mkLine_content r 'U' 'D' hUid (by rw [hD']; decide) (by decide) hUdate]
      exact frame_of_content_change r 'U' 'D' htabid hstt (by decide) htabdate hct
    · rw [mark_as_undone, hgs2, if_neg (by decide),
        show ('D' : Char) = r.st from hD'.symm,
        nsr_mkLine_st r 'U' (by rw [hD']; exact hDid) hstt]
      exact frame_of_status_change r 'U' htabid hstt (by decide) htabdate hct
    · rw [mark_as_postponed, hgs2, if_neg (by decide)]
      exact frame_self r htabid hstt htabdate hct
  · have hgs2 : get_note_status (mkLine r) = NoteStatus.POSTPONED := by
      rw [hgs, if_neg (by rw [hP']; decide), if_neg (by rw [hP']; decide), if_pos hP']
    refine ⟨?_, ?_, ?_⟩
    · rw [mark_as_done, hgs2, if_pos rfl,
        show ('P' : Char) = r.st from hP'.symm,
        nsr_mkLine_st r 'D' (by rw [hP']; exact hPid) hstt]
      exact frame_of_status_change r 'D' htabid hstt (by decide) htabdate hct
    · rw [mark_as_undone, hgs2, if_pos rfl,
        show ('P' : Char) = r.st from hP'.symm,
        nsr_mkLine_st r 'U' (by rw [hP']; exact hPid) hstt]
      exact frame_of_status_change r 'U' htabid hstt (by decide) htabdate hct
    · rw [mark_as_postponed, hgs2, if_neg (by decide)]
      exact frame_self r htabid hstt htabdate hct

/-- Claim C10 (witness): the frame property at the Done record
(1, D, 2014-11-02, "Use soap") — the record whose content even loses its
U to mark_as_done, yet keeps its id and date fields and differs in at most
one character. -/
theorem mark_helpers_preserve_id_date_witness :
    wfRec { id := ['1'], st := 'D', date := "2014-11-02".data,
            content := "Use soap".data } ∧
    (id_date_frame { id := ['1'], st := 'D', date := "2014-11-02".data,
                     content := "Use soap".data }
      (mark_as_done (mkLine { id := ['1'], st := 'D', date := "2014-11-02".data,
                              content := "Use soap".data })) ∧
     id_date_frame { id := ['1'], st := 'D', date := "2014-11-02".data,
                     content := "Use soap".data }
      (mark_as_undone (mkLine { id := ['1'], st := 'D', date := "2014-11-02".data,
                                content := "Use soap".data })) ∧
     id_date_frame { id := ['1'], st := 'D', date := "2014-11-02".data,
                     content := "Use soap".data }
      (mark_as_postponed (mkLine { id := ['1'], st := 'D', date := "2014-11-02".data,
                                   content := "Use soap".data }))) :=
  ⟨by decide, mark_helpers_preserve_id_date _ (by decide) (by decide)⟩

end Memo
